import Mathlib

/-!
# Verification of the secinfo file-transfer programs

Shallow embedding of the file-transfer core of the repository:
`servidor_tls.py` (receiver), `cliente_limpo.py` and `cliente_tls.py`
(senders), and the metrics recorder `log_metrics`.

Modelling conventions:
* a byte is a `Nat` below 256;
* a connection (`ByteStream`) is the ordered list of fragments the
  transport will deliver; `recv(k)` yields at most `k` bytes taken from
  the first pending fragment, and yields the empty chunk once the
  fragment list is exhausted (the end-of-stream signal of `sock.recv`);
* fallible operations return `Except NetError`;
* machine integers (`!H`, `!Q` of `struct.pack`) are `Nat` with their
  range bounds carried as hypotheses, exactly the ranges `struct.pack`
  itself enforces;
* wall-clock quantities (the `duration` measured with `perf_counter`)
  are modelled as rationals, which preserves the sign tests and the
  division that the metrics code performs on them.
-/

/-- Error taxonomy of the programs: `cliente_limpo.py:31` /
`cliente_tls.py:33` raise `ValueError` for an oversized name
(`NameTooLong` in the spec), `servidor_tls.py:28` raises
`ConnectionError` on an exact-read underrun (`IncompleteStream`). -/
inductive NetError where
  | NameTooLong
  | IncompleteStream
  deriving DecidableEq, Repr

/-- A byte source: the fragments the transport delivers, in order.  An
empty fragment list means the peer has closed the connection, so the
next `recv` returns the empty chunk. -/
structure ByteStream where
  frags : List (List Nat)
  deriving DecidableEq, Repr

/-- Well-formed source: the transport never delivers an empty fragment
(`sock.recv` returns `b""` only at end-of-stream). -/
def ByteStream.WF (s : ByteStream) : Prop := ∀ f ∈ s.frags, f ≠ []

instance (s : ByteStream) : Decidable s.WF := by
  unfold ByteStream.WF; infer_instance

/-- Loop of `recv_exact` (servidor_tls.py:19-30).  `data` is the
accumulator; while `len(data) < n_bytes` the loop calls
`sock.recv(n_bytes - len(data))` — modelled as taking at most that many
bytes from the first pending fragment — raises `IncompleteStream` when
the chunk comes back empty, and appends the chunk otherwise.  When a
fragment is only partially consumed its remainder stays buffered, but
then the accumulated data is already complete, so the loop re-checks its
condition and exits, exactly as the Python `while` does. -/
def recvExactAux : List (List Nat) → Nat → List Nat →
    Except NetError (List Nat × ByteStream)
  | frags, n_bytes, data =>
    if data.length < n_bytes then
      match frags with
      | [] => .error .IncompleteStream
      | f :: rest =>
        let chunk := f.take (n_bytes - data.length)
        if chunk = [] then .error .IncompleteStream
        else if f.drop (n_bytes - data.length) = [] then
          recvExactAux rest n_bytes (data ++ chunk)
        else .ok (data ++ chunk, ⟨f.drop (n_bytes - data.length) :: rest⟩)
    else .ok (data, ⟨frags⟩)

/-- `recv_exact(sock, n_bytes)` (servidor_tls.py:19-30): read exactly
`n_bytes` from the socket or raise. -/
def recv_exact (s : ByteStream) (n_bytes : Nat) :
    Except NetError (List Nat × ByteStream) :=
  recvExactAux s.frags n_bytes []

lemma recvExactAux_ok_length :
    ∀ (frags : List (List Nat)) (n : Nat) (data out : List Nat)
      (s' : ByteStream), data.length ≤ n →
      recvExactAux frags n data = .ok (out, s') → out.length = n := by
  intro frags
  induction frags with
  | nil =>
    intro n data out s' hle h
    rw [recvExactAux] at h
    by_cases hlt : data.length < n
    · simp [hlt] at h
    · simp only [if_neg hlt] at h
      simp at h
      obtain ⟨hout, _⟩ := h
      subst hout
      omega
  | cons f rest ih =>
    intro n data out s' hle h
    rw [recvExactAux] at h
    by_cases hlt : data.length < n
    · simp only [if_pos hlt] at h
      by_cases hc : f.take (n - data.length) = []
      · simp [hc] at h
      · simp only [if_neg hc] at h
        by_cases hd : f.drop (n - data.length) = []
        · simp only [if_pos hd] at h
          have hlen : (data ++ f.take (n - data.length)).length ≤ n := by
            have := List.length_take_le (n - data.length) f
            simp [List.length_append]
            omega
          exact ih n _ out s' hlen h
        · simp only [if_neg hd] at h
          have hfl : n - data.length ≤ f.length := by
            by_contra hgt
            exact hd (List.drop_eq_nil_of_le (by omega))
          have htk : (f.take (n - data.length)).length = n - data.length := by
            simp [List.length_take]
            omega
          simp at h
          obtain ⟨hout, _⟩ := h
          subst hout
          simp [List.length_append, htk]
          omega
    · simp only [if_neg hlt] at h
      simp at h
      obtain ⟨hout, _⟩ := h
      subst hout
      omega

lemma recvExactAux_spec :
    ∀ (frags : List (List Nat)) (n : Nat) (data : List Nat),
      (∀ f ∈ frags, f ≠ []) → data.length ≤ n →
      n ≤ data.length + frags.flatten.length →
      ∃ frags', recvExactAux frags n data =
          .ok (data ++ frags.flatten.take (n - data.length), ⟨frags'⟩)
        ∧ frags'.flatten = frags.flatten.drop (n - data.length)
        ∧ ∀ f ∈ frags', f ≠ [] := by
  intro frags
  induction frags with
  | nil =>
    intro n data _ hle hav
    simp only [List.flatten_nil, List.length_nil, Nat.add_zero] at hav
    rw [recvExactAux]
    have hnd : ¬ data.length < n := by omega
    rw [if_neg hnd]
    have hz : n - data.length = 0 := by omega
    exact ⟨[], by simp [hz], by simp [hz], by simp⟩
  | cons f rest ih =>
    intro n data hwf hle hav
    rw [recvExactAux]
    by_cases hlt : data.length < n
    · rw [if_pos hlt]
      have hf : f ≠ [] := hwf f (by simp)
      have hc : ¬ f.take (n - data.length) = [] := by
        rw [List.take_eq_nil_iff]
        push_neg
        exact ⟨by omega, hf⟩
      rw [if_neg hc]
      by_cases hd : f.drop (n - data.length) = []
      · rw [if_pos hd]
        have hfb : f.length ≤ n - data.length := List.drop_eq_nil_iff.mp hd
        have htf : f.take (n - data.length) = f := List.take_of_length_le hfb
        rw [htf]
        have hwf' : ∀ g ∈ rest, g ≠ [] := fun g hg => hwf g (by simp [hg])
        have hle' : (data ++ f).length ≤ n := by
          simp [List.length_append]; omega
        have hav' : n ≤ (data ++ f).length + rest.flatten.length := by
          simp only [List.flatten_cons, List.length_append] at hav ⊢
          omega
        obtain ⟨frags', h1, h2, h3⟩ := ih n (data ++ f) hwf' hle' hav'
        have hidx : n - (data ++ f).length = n - data.length - f.length := by
          simp [List.length_append, Nat.sub_sub]
        refine ⟨frags', ?_, ?_, h3⟩
        · rw [h1]
          have hkey : data ++ f ++ rest.flatten.take (n - (data ++ f).length)
              = data ++ ((f :: rest).flatten).take (n - data.length) := by
            rw [List.flatten_cons, List.take_append_eq_append_take, htf,
              hidx, List.append_assoc]
          rw [hkey]
        · rw [h2, List.flatten_cons, List.drop_append_eq_append_drop,
            List.drop_eq_nil_of_le hfb, hidx]
          simp
      · rw [if_neg hd]
        have hbf : n - data.length ≤ f.length := by
          by_contra hgt
          exact hd (List.drop_eq_nil_of_le (by omega))
        refine ⟨f.drop (n - data.length) :: rest, ?_, ?_, ?_⟩
        · congr 2
          rw [List.flatten_cons, List.take_append_of_le_length hbf]
        · rw [List.flatten_cons, List.flatten_cons,
            List.drop_append_eq_append_drop]
          have : n - data.length - f.length = 0 := by omega
          simp [this]
        · intro g hg
          rcases List.mem_cons.mp hg with h | h
          · subst h; exact hd
          · exact hwf g (by simp [h])
    · rw [if_neg hlt]
      have hz : n - data.length = 0 := by omega
      exact ⟨f :: rest, by simp [hz], by simp [hz], hwf⟩

lemma recvExactAux_underrun :
    ∀ (frags : List (List Nat)) (n : Nat) (data : List Nat),
      data.length + frags.flatten.length < n →
      recvExactAux frags n data = .error .IncompleteStream := by
  intro frags
  induction frags with
  | nil =>
    intro n data hav
    simp only [List.flatten_nil, List.length_nil, Nat.add_zero] at hav
    rw [recvExactAux, if_pos hav]
  | cons f rest ih =>
    intro n data hav
    simp only [List.flatten_cons, List.length_append] at hav
    rw [recvExactAux, if_pos (by omega)]
    by_cases hc : f.take (n - data.length) = []
    · rw [if_pos hc]
    · rw [if_neg hc]
      have hfb : f.length < n - data.length := by omega
      have hd : f.drop (n - data.length) = [] :=
        List.drop_eq_nil_of_le (by omega)
      rw [if_pos hd]
      have htf : f.take (n - data.length) = f :=
        List.take_of_length_le (by omega)
      rw [htf]
      exact ih n (data ++ f) (by simp only [List.length_append]; omega)

/-- `recv_exact` on a well-formed source holding at least `n` bytes
returns the first `n` bytes of the source and leaves the rest
buffered. -/
lemma recv_exact_spec (s : ByteStream) (n : Nat) (hwf : s.WF)
    (hav : n ≤ s.frags.flatten.length) :
    ∃ s', recv_exact s n = .ok (s.frags.flatten.take n, s')
      ∧ s'.frags.flatten = s.frags.flatten.drop n ∧ s'.WF := by
  obtain ⟨frags', h1, h2, h3⟩ :=
    recvExactAux_spec s.frags n [] hwf (by simp) (by simpa using hav)
  exact ⟨⟨frags'⟩, by simpa using h1, h2, h3⟩

/-- Whenever `recv_exact` succeeds, the returned data has exactly the
requested length. -/
lemma recv_exact_ok_length {s : ByteStream} {n : Nat} {d : List Nat}
    {s' : ByteStream} (h : recv_exact s n = .ok (d, s')) : d.length = n :=
  recvExactAux_ok_length s.frags n [] d s' (by simp) h

/-- `recv_exact` never produces an error other than `IncompleteStream`. -/
lemma recvExactAux_error_eq :
    ∀ (frags : List (List Nat)) (n : Nat) (data : List Nat) (e : NetError),
      recvExactAux frags n data = .error e → e = .IncompleteStream := by
  intro frags
  induction frags with
  | nil =>
    intro n data e h
    rw [recvExactAux] at h
    by_cases hlt : data.length < n
    · rw [if_pos hlt] at h
      injection h with h2
      exact h2.symm
    · simp [hlt] at h
  | cons f rest ih =>
    intro n data e h
    rw [recvExactAux] at h
    by_cases hlt : data.length < n
    · simp only [if_pos hlt] at h
      by_cases hc : f.take (n - data.length) = []
      · rw [if_pos hc] at h
        injection h with h2
        exact h2.symm
      · simp only [if_neg hc] at h
        by_cases hd : f.drop (n - data.length) = []
        · simp only [if_pos hd] at h
          exact ih n _ e h
        · simp [hd] at h
    · simp [hlt] at h

/-- `struct.pack` big-endian unsigned encoding on `k` bytes (`"!H"` is
`packBE 2`, `"!Q"` is `packBE 8`); `struct.pack` itself range-checks its
argument, so the model is only ever used under `n < 256 ^ k`. -/
def packBE : Nat → Nat → List Nat
  | 0, _ => []
  | k + 1, n => packBE k (n / 256) ++ [n % 256]

/-- `struct.unpack` big-endian unsigned decoding of a byte string. -/
def unpackBE (bytes : List Nat) : Nat :=
  bytes.foldl (fun acc b => acc * 256 + b) 0

@[simp] lemma length_packBE (k n : Nat) : (packBE k n).length = k := by
  induction k generalizing n with
  | zero => rfl
  | succ k ih => simp [packBE, ih]

lemma unpackBE_append_singleton (bytes : List Nat) (b : Nat) :
    unpackBE (bytes ++ [b]) = unpackBE bytes * 256 + b := by
  simp [unpackBE, List.foldl_append]

lemma unpackBE_packBE {k n : Nat} (h : n < 256 ^ k) :
    unpackBE (packBE k n) = n := by
  induction k generalizing n with
  | zero =>
    simp [Nat.pow_zero] at h
    simp [packBE, unpackBE, h]
  | succ k ih =>
    rw [packBE, unpackBE_append_singleton, ih (by
      have : 256 ^ (k + 1) = 256 ^ k * 256 := by ring
      rw [this] at h
      exact Nat.div_lt_of_lt_mul (by omega))]
    omega

/-- Chunk size used by both sides (`CHUNK_SIZE = 4096`). -/
def CHUNK_SIZE : Nat := 4096

/-- Payload loop of `handle_client` (servidor_tls.py:105-112): while
`bytes_remaining > 0`, read `min(CHUNK_SIZE, bytes_remaining)` bytes
with `recv_exact`, write the chunk to the destination file (`written`
accumulates the file contents), and decrease `bytes_remaining` by the
chunk's length.  If a read fails the bytes already written stay in the
file and the error propagates. -/
def payloadLoop (s : ByteStream) (bytes_remaining : Nat)
    (written : List Nat) : List Nat × Except NetError ByteStream :=
  if h : 0 < bytes_remaining then
    match hr : recv_exact s (min CHUNK_SIZE bytes_remaining) with
    | .error e => (written, .error e)
    | .ok (chunk, s') =>
      payloadLoop s' (bytes_remaining - chunk.length) (written ++ chunk)
  else (written, .ok s)
termination_by bytes_remaining
decreasing_by
  have hlen : chunk.length = min CHUNK_SIZE bytes_remaining :=
    recv_exact_ok_length hr
  have : 0 < min CHUNK_SIZE bytes_remaining := by
    simp [CHUNK_SIZE]
    omega
  omega

/-- On a well-formed source holding at least `rem` bytes, the payload
loop drains exactly the first `rem` bytes into the file and leaves the
rest of the stream buffered. -/
lemma payloadLoop_spec :
    ∀ (rem : Nat) (s : ByteStream) (written : List Nat), s.WF →
      rem ≤ s.frags.flatten.length →
      ∃ s', payloadLoop s rem written
          = (written ++ s.frags.flatten.take rem, .ok s')
        ∧ s'.frags.flatten = s.frags.flatten.drop rem ∧ s'.WF := by
  intro rem
  induction rem using Nat.strong_induction_on with
  | _ rem ih =>
    intro s written hwf hav
    rw [payloadLoop]
    by_cases h : 0 < rem
    · rw [dif_pos h]
      obtain ⟨m, hmq⟩ : ∃ m, min CHUNK_SIZE rem = m := ⟨_, rfl⟩
      have hm1 : 1 ≤ m := hmq ▸ le_min (by norm_num [CHUNK_SIZE]) h
      have hmr : m ≤ rem := hmq ▸ min_le_right _ _
      rw [hmq]
      obtain ⟨s1, hr, hj, hw⟩ := recv_exact_spec s m hwf (le_trans hmr hav)
      rw [hr]
      have hcl : (s.frags.flatten.take m).length = m :=
        List.length_take_of_le (le_trans hmr hav)
      dsimp only
      rw [hcl]
      have hsum : m + (rem - m) = rem := by omega
      obtain ⟨s', h1, h2, h3⟩ := ih (rem - m) (by omega) s1
        (written ++ s.frags.flatten.take m) hw
        (by rw [hj, List.length_drop]; omega)
      refine ⟨s', ?_, ?_, h3⟩
      · rw [h1, hj]
        have hkey : written ++ s.frags.flatten.take m
              ++ (s.frags.flatten.drop m).take (rem - m)
            = written ++ s.frags.flatten.take rem := by
          rw [List.append_assoc, ← List.take_add, hsum]
        rw [hkey]
      · rw [h2, hj, List.drop_drop, hsum]
    · rw [dif_neg h]
      have hz : rem = 0 := by omega
      subst hz
      exact ⟨s, by simp, by simp, hwf⟩

/-- UTF-8 encoding of one unicode scalar value, as produced by Python's
`str.encode("utf-8")` (cliente_limpo.py:27, cliente_tls.py:29). -/
def utf8EncodeChar (c : Char) : List Nat :=
  let n := c.toNat
  if n < 0x80 then [n]
  else if n < 0x800 then [0xC0 + n / 64, 0x80 + n % 64]
  else if n < 0x10000 then
    [0xE0 + n / 4096, 0x80 + n / 64 % 64, 0x80 + n % 64]
  else
    [0xF0 + n / 262144, 0x80 + n / 4096 % 64, 0x80 + n / 64 % 64,
      0x80 + n % 64]

/-- UTF-8 encoding of a whole string. -/
def utf8Encode (cs : List Char) : List Nat := cs.flatMap utf8EncodeChar

/-- State of the streaming UTF-8 decoder: between sequences, or inside a
multi-byte sequence with `acc` the code-point bits read so far, `need`
continuation bytes still expected, and `[lo, hi]` the admissible range
of the next byte (the restricted range of the first continuation byte is
what rejects overlong forms and surrogates). -/
inductive Utf8State where
  | start
  | mid (acc need lo hi : Nat)
  deriving DecidableEq, Repr

/-- U+FFFD, the replacement character substituted by
`errors="replace"`. -/
def replacementChar : Char := Char.ofNat 0xFFFD

/-- Classify a byte as the start of a UTF-8 sequence.  Bytes `0x80-0xC1`
(stray continuations and overlong 2-byte leads) and `0xF5-0xFF` are
invalid everywhere and yield one U+FFFD. -/
def utf8Lead (b : Nat) : Utf8State × List Char :=
  if b < 0x80 then (.start, [Char.ofNat b])
  else if b < 0xC2 then (.start, [replacementChar])
  else if b ≤ 0xDF then (.mid (b - 0xC0) 1 0x80 0xBF, [])
  else if b = 0xE0 then (.mid 0 2 0xA0 0xBF, [])
  else if b = 0xED then (.mid 13 2 0x80 0x9F, [])
  else if b ≤ 0xEF then (.mid (b - 0xE0) 2 0x80 0xBF, [])
  else if b = 0xF0 then (.mid 0 3 0x90 0xBF, [])
  else if b = 0xF4 then (.mid 4 3 0x80 0x8F, [])
  else if b ≤ 0xF3 then (.mid (b - 0xF0) 3 0x80 0xBF, [])
  else (.start, [replacementChar])

/-- One decoder step.  On a byte outside the admissible continuation
range the aborted sequence becomes one U+FFFD and the byte is
reprocessed as a lead — CPython's "maximal subpart" replacement
policy. -/
def utf8Step (st : Utf8State) (b : Nat) : Utf8State × List Char :=
  match st with
  | .start => utf8Lead b
  | .mid acc need lo hi =>
    if lo ≤ b ∧ b ≤ hi then
      if need = 1 then (.start, [Char.ofNat (acc * 64 + (b - 0x80))])
      else (.mid (acc * 64 + (b - 0x80)) (need - 1) 0x80 0xBF, [])
    else
      let p := utf8Lead b
      (p.1, replacementChar :: p.2)

/-- Run the decoder over a byte string; a sequence left unfinished at
the end of input becomes one U+FFFD. -/
def utf8DecodeLoop : Utf8State → List Nat → List Char
  | .start, [] => []
  | .mid _ _ _ _, [] => [replacementChar]
  | st, b :: rest =>
    let p := utf8Step st b
    p.2 ++ utf8DecodeLoop p.1 rest

/-- `name_bytes.decode("utf-8", errors="replace")` (servidor_tls.py:93):
total on every byte string; valid sequences decode to their code points
and bytes that fit no valid sequence become U+FFFD. -/
def utf8DecodeReplace (bytes : List Nat) : List Char :=
  utf8DecodeLoop .start bytes

lemma utf8DecodeLoop_cons (st : Utf8State) (b : Nat) (rest : List Nat) :
    utf8DecodeLoop st (b :: rest)
      = (utf8Step st b).2 ++ utf8DecodeLoop (utf8Step st b).1 rest := by
  cases st <;> rfl

lemma utf8DecodeLoop_of_step {st : Utf8State} {b : Nat} {st' : Utf8State}
    {out : List Char} (rest : List Nat) (h : utf8Step st b = (st', out)) :
    utf8DecodeLoop st (b :: rest) = out ++ utf8DecodeLoop st' rest := by
  rw [utf8DecodeLoop_cons, h]

lemma utf8Step_start (b : Nat) : utf8Step .start b = utf8Lead b := rfl

lemma utf8Step_mid_more {acc b need lo hi : Nat} (hb : lo ≤ b ∧ b ≤ hi)
    (hneed : ¬ need = 1) :
    utf8Step (.mid acc need lo hi) b
      = (.mid (acc * 64 + (b - 0x80)) (need - 1) 0x80 0xBF, []) := by
  unfold utf8Step
  dsimp only
  rw [if_pos hb, if_neg hneed]

lemma utf8Step_mid_last {acc b lo hi : Nat} (hb : lo ≤ b ∧ b ≤ hi) :
    utf8Step (.mid acc 1 lo hi) b
      = (.start, [Char.ofNat (acc * 64 + (b - 0x80))]) := by
  unfold utf8Step
  dsimp only
  rw [if_pos hb, if_pos rfl]

lemma utf8Lead_ascii {b : Nat} (h : b < 0x80) :
    utf8Lead b = (.start, [Char.ofNat b]) := by
  rw [utf8Lead, if_pos h]

lemma utf8Lead_2byte {b : Nat} (h1 : 0xC2 ≤ b) (h2 : b ≤ 0xDF) :
    utf8Lead b = (.mid (b - 0xC0) 1 0x80 0xBF, []) := by
  rw [utf8Lead, if_neg (by omega), if_neg (by omega), if_pos h2]

lemma utf8Lead_3byte {b : Nat} (h1 : 0xE0 < b) (h2 : b ≤ 0xEF)
    (h3 : ¬ b = 0xED) :
    utf8Lead b = (.mid (b - 0xE0) 2 0x80 0xBF, []) := by
  have ha : ¬ b < 0x80 := by omega
  have hb : ¬ b < 0xC2 := by omega
  have hc : ¬ b ≤ 0xDF := by omega
  have hd : ¬ b = 0xE0 := by omega
  rw [utf8Lead, if_neg ha, if_neg hb, if_neg hc, if_neg hd, if_neg h3,
    if_pos h2]

lemma utf8Lead_4byte {b : Nat} (h1 : 0xF0 < b) (h2 : b ≤ 0xF3) :
    utf8Lead b = (.mid (b - 0xF0) 3 0x80 0xBF, []) := by
  have ha : ¬ b < 0x80 := by omega
  have hb : ¬ b < 0xC2 := by omega
  have hc : ¬ b ≤ 0xDF := by omega
  have hd : ¬ b = 0xE0 := by omega
  have he : ¬ b = 0xED := by omega
  have hf : ¬ b ≤ 0xEF := by omega
  have hg : ¬ b = 0xF0 := by omega
  have hh : ¬ b = 0xF4 := by omega
  rw [utf8Lead, if_neg ha, if_neg hb, if_neg hc, if_neg hd, if_neg he,
    if_neg hf, if_neg hg, if_neg hh, if_pos h2]

/-- Decoding a validly encoded scalar value consumes exactly its own
encoding and emits exactly that character, whatever bytes follow. -/
lemma utf8DecodeLoop_encodeChar (c : Char) (rest : List Nat) :
    utf8DecodeLoop .start (utf8EncodeChar c ++ rest)
      = c :: utf8DecodeLoop .start rest := by
  have hv : c.toNat < 0xD800 ∨ (0xDFFF < c.toNat ∧ c.toNat < 0x110000) :=
    c.valid
  have hofn : Char.ofNat c.toNat = c := Char.ofNat_toNat c
  rw [utf8EncodeChar]
  set n := c.toNat with hn
  have hmax : n < 0x110000 := by rcases hv with h | ⟨_, h⟩ <;> omega
  by_cases h1 : n < 0x80
  · rw [if_pos h1]
    have hs0 : utf8Step .start n = (.start, [Char.ofNat n]) :=
      (utf8Step_start n).trans (utf8Lead_ascii h1)
    rw [List.singleton_append, utf8DecodeLoop_of_step rest hs0, hofn]
    rfl
  · rw [if_neg h1]
    by_cases h2 : n < 0x800
    · rw [if_pos h2]
      have hs0 : utf8Step .start (0xC0 + n / 64)
          = (.mid (n / 64) 1 0x80 0xBF, []) := by
        rw [utf8Step_start, utf8Lead_2byte (by omega) (by omega)]
        have : 0xC0 + n / 64 - 0xC0 = n / 64 := by omega
        rw [this]
      have hs1 : utf8Step (.mid (n / 64) 1 0x80 0xBF) (0x80 + n % 64)
          = (.start, [Char.ofNat n]) := by
        rw [utf8Step_mid_last ⟨by omega, by omega⟩]
        have : n / 64 * 64 + (0x80 + n % 64 - 0x80) = n := by omega
        rw [this]
      rw [List.cons_append, List.singleton_append,
        utf8DecodeLoop_of_step _ hs0, utf8DecodeLoop_of_step rest hs1, hofn]
      rfl
    · rw [if_neg h2]
      by_cases h3 : n < 0x10000
      · rw [if_pos h3]
        have hb1 : 0x80 + n / 64 % 64 - 0x80 = n / 64 % 64 := by omega
        have hs0 : utf8Step .start (0xE0 + n / 4096)
            = (.mid (n / 4096) 2 (if n / 4096 = 0 then 0xA0 else 0x80)
                (if n / 4096 = 13 then 0x9F else 0xBF), []) := by
          by_cases hq0 : n / 4096 = 0
          · have hb0 : 0xE0 + n / 4096 = 0xE0 := by omega
            rw [utf8Step_start, hb0, hq0, if_pos rfl,
              if_neg (by omega)]
            rfl
          · by_cases hq13 : n / 4096 = 13
            · have hb0 : 0xE0 + n / 4096 = 0xED := by omega
              rw [utf8Step_start, hb0, hq13, if_neg (by omega), if_pos rfl]
              rfl
            · rw [utf8Step_start,
                utf8Lead_3byte (by omega) (by omega) (by omega),
                if_neg hq0, if_neg hq13]
              have : 0xE0 + n / 4096 - 0xE0 = n / 4096 := by omega
              rw [this]
        have hcontlo : (if n / 4096 = 0 then 0xA0 else 0x80)
            ≤ 0x80 + n / 64 % 64 := by
          by_cases hq0 : n / 4096 = 0 <;> simp [hq0] <;> omega
        have hconthi : 0x80 + n / 64 % 64
            ≤ (if n / 4096 = 13 then 0x9F else 0xBF) := by
          by_cases hq13 : n / 4096 = 13 <;> simp [hq13] <;> omega
        have hs1 : utf8Step
            (.mid (n / 4096) 2 (if n / 4096 = 0 then 0xA0 else 0x80)
              (if n / 4096 = 13 then 0x9F else 0xBF)) (0x80 + n / 64 % 64)
            = (.mid (n / 64) 1 0x80 0xBF, []) := by
          rw [utf8Step_mid_more ⟨hcontlo, hconthi⟩ (by omega)]
          have : n / 4096 * 64 + (0x80 + n / 64 % 64 - 0x80) = n / 64 := by
            omega
          rw [this]
        have hs2 : utf8Step (.mid (n / 64) 1 0x80 0xBF) (0x80 + n % 64)
            = (.start, [Char.ofNat n]) := by
          rw [utf8Step_mid_last ⟨by omega, by omega⟩]
          have : n / 64 * 64 + (0x80 + n % 64 - 0x80) = n := by omega
          rw [this]
        rw [List.cons_append, List.cons_append, List.singleton_append,
          utf8DecodeLoop_of_step _ hs0, utf8DecodeLoop_of_step _ hs1,
          utf8DecodeLoop_of_step rest hs2, hofn]
        rfl
      · rw [if_neg h3]
        have hs0 : utf8Step .start (0xF0 + n / 262144)
            = (.mid (n / 262144) 3
                (if n / 262144 = 0 then 0x90 else 0x80)
                (if n / 262144 = 4 then 0x8F else 0xBF), []) := by
          by_cases hq0 : n / 262144 = 0
          · have hb0 : 0xF0 + n / 262144 = 0xF0 := by omega
            rw [utf8Step_start, hb0, hq0, if_pos rfl, if_neg (by omega)]
            rfl
          · by_cases hq4 : n / 262144 = 4
            · have hb0 : 0xF0 + n / 262144 = 0xF4 := by omega
              rw [utf8Step_start, hb0, hq4, if_neg (by omega), if_pos rfl]
              rfl
            · rw [utf8Step_start, utf8Lead_4byte (by omega) (by omega),
                if_neg hq0, if_neg hq4]
              have : 0xF0 + n / 262144 - 0xF0 = n / 262144 := by omega
              rw [this]
        have hcontlo : (if n / 262144 = 0 then 0x90 else 0x80)
            ≤ 0x80 + n / 4096 % 64 := by
          by_cases hq0 : n / 262144 = 0 <;> simp [hq0] <;> omega
        have hconthi : 0x80 + n / 4096 % 64
            ≤ (if n / 262144 = 4 then 0x8F else 0xBF) := by
          by_cases hq4 : n / 262144 = 4 <;> simp [hq4] <;> omega
        have hs1 : utf8Step
            (.mid (n / 262144) 3 (if n / 262144 = 0 then 0x90 else 0x80)
              (if n / 262144 = 4 then 0x8F else 0xBF)) (0x80 + n / 4096 % 64)
            = (.mid (n / 4096) 2 0x80 0xBF, []) := by
          rw [utf8Step_mid_more ⟨hcontlo, hconthi⟩ (by omega)]
          have : n / 262144 * 64 + (0x80 + n / 4096 % 64 - 0x80)
              = n / 4096 := by omega
          rw [this]
        have hs2 : utf8Step (.mid (n / 4096) 2 0x80 0xBF)
            (0x80 + n / 64 % 64) = (.mid (n / 64) 1 0x80 0xBF, []) := by
          rw [utf8Step_mid_more ⟨by omega, by omega⟩ (by omega)]
          have : n / 4096 * 64 + (0x80 + n / 64 % 64 - 0x80) = n / 64 := by
            omega
          rw [this]
        have hs3 : utf8Step (.mid (n / 64) 1 0x80 0xBF) (0x80 + n % 64)
            = (.start, [Char.ofNat n]) := by
          rw [utf8Step_mid_last ⟨by omega, by omega⟩]
          have : n / 64 * 64 + (0x80 + n % 64 - 0x80) = n := by omega
          rw [this]
        rw [List.cons_append, List.cons_append, List.cons_append,
          List.singleton_append, utf8DecodeLoop_of_step _ hs0,
          utf8DecodeLoop_of_step _ hs1, utf8DecodeLoop_of_step _ hs2,
          utf8DecodeLoop_of_step rest hs3, hofn]
        rfl

/-- Round trip: the receiver's replacement decoder is a left inverse of
the sender's UTF-8 encoder on every unicode string. -/
lemma utf8DecodeReplace_utf8Encode (cs : List Char) :
    utf8DecodeReplace (utf8Encode cs) = cs := by
  induction cs with
  | nil => rfl
  | cons c cs ih =>
    rw [utf8Encode, List.flatMap_cons]
    show utf8DecodeLoop .start (utf8EncodeChar c ++ utf8Encode cs) = _
    rw [utf8DecodeLoop_encodeChar]
    exact congrArg (c :: ·) ih

/-- The transfer header of the wire protocol (spec §3): filename plus
declared payload size. -/
structure TransferHeader where
  filename : List Char
  fileSize : Nat
  deriving DecidableEq, Repr

/-- Header serialization performed by the senders (cliente_limpo.py:27-35,
cliente_tls.py:29-37): `struct.pack("!H", name_len) + name_bytes +
struct.pack("!Q", file_size)`, guarded by the `name_len > 65535`
check. -/
def encodeHeader (filename : List Char) (file_size : Nat) :
    Except NetError (List Nat) :=
  let name_bytes := utf8Encode filename
  let name_len := name_bytes.length
  if name_len > 65535 then .error .NameTooLong
  else .ok (packBE 2 name_len ++ name_bytes ++ packBE 8 file_size)

/-- Header decoding performed by the receiver (servidor_tls.py:87-97):
three sequential exact reads — 2 bytes of name length, the name bytes,
8 bytes of file size — with the name decoded using `errors="replace"`;
any exact-read failure propagates. -/
def decodeHeader (s : ByteStream) :
    Except NetError (TransferHeader × ByteStream) :=
  match recv_exact s 2 with
  | .error e => .error e
  | .ok (raw_name_len, s1) =>
    let name_len := unpackBE raw_name_len
    match recv_exact s1 name_len with
    | .error e => .error e
    | .ok (name_bytes, s2) =>
      let filename := utf8DecodeReplace name_bytes
      match recv_exact s2 8 with
      | .error e => .error e
      | .ok (raw_file_size, s3) =>
        .ok (⟨filename, unpackBE raw_file_size⟩, s3)

/-- Observable outcome of `handle_client` (servidor_tls.py:74-121):
`file` is the destination file's name and contents if the file was
created (it is created right after a successful header decode and keeps
whatever was written even if the payload fails mid-way); `record` is the
transfer the metrics recorder is asked to log; `err` is the exception
the function raised, if any. -/
structure HandleOutcome where
  file : Option (List Char × List Nat)
  record : Option (List Char × Nat)
  err : Option NetError
  deriving DecidableEq, Repr

/-- `handle_client(conn, addr)` (servidor_tls.py:74-121): decode the
header, drain the payload into the destination file, then — only after
the full payload — call the metrics recorder.  Any exception escapes
with the file left exactly as written so far. -/
def handle_client (s : ByteStream) : HandleOutcome :=
  match decodeHeader s with
  | .error e => ⟨none, none, some e⟩
  | .ok (hdr, s1) =>
    match payloadLoop s1 hdr.fileSize [] with
    | (written, .error e) => ⟨some (hdr.filename, written), none, some e⟩
    | (written, .ok _) =>
      ⟨some (hdr.filename, written), some (hdr.filename, hdr.fileSize),
        none⟩

/-- Accept loop of `main` (servidor_tls.py:164-173): each accepted
connection is handled inside `try/except`, so an error recorded in the
outcome's `err` field is logged and the loop moves on to the next
connection. -/
def serverLoop : List ByteStream → List HandleOutcome
  | [] => []
  | conn :: rest => handle_client conn :: serverLoop rest

/-- One line of the metrics store `metrics_tls.csv`: the header line or
a data line with the seven fields written at servidor_tls.py:61-71. -/
inductive CsvLine where
  | header
  | data (timestamp client_ip : String) (client_port : Nat)
      (filename : List Char) (file_size : Nat) (duration throughput : ℚ)
  deriving DecidableEq, Repr

/-- Python's `/` on numbers: raises `ZeroDivisionError` (here `none`) on
a zero divisor. -/
def pyDiv (a b : ℚ) : Option ℚ := if b = 0 then none else some (a / b)

/-- `log_metrics(...)` (servidor_tls.py:33-71) over an explicit store
state, `none` meaning the metrics file does not exist yet.  Computes
`throughput = file_size / duration if duration > 0 else 0.0`, writes the
header row first iff the file did not exist, then appends one data row.
The `.error` outcome happens only if the division raises — which the
`duration > 0` guard rules out. -/
def log_metrics (store : Option (List CsvLine)) (timestamp client_ip : String)
    (client_port : Nat) (filename : List Char) (file_size : Nat)
    (duration : ℚ) : Except Unit (List CsvLine) :=
  match (if duration > 0 then pyDiv (file_size : ℚ) duration
      else some 0) with
  | none => .error ()
  | some throughput =>
    let line := CsvLine.data timestamp client_ip client_port filename
      file_size duration throughput
    .ok (match store with
      | none => [CsvLine.header, line]
      | some lines => lines ++ [line])

/-- The inputs of one metrics append. -/
structure TransferRow where
  timestamp : String
  client_ip : String
  client_port : Nat
  filename : List Char
  file_size : Nat
  duration : ℚ
  deriving DecidableEq, Repr

/-- The data line `log_metrics` writes for a row, with the guarded
throughput value. -/
def rowLine (r : TransferRow) : CsvLine :=
  .data r.timestamp r.client_ip r.client_port r.filename r.file_size
    r.duration
    (if r.duration > 0 then (r.file_size : ℚ) / r.duration else 0)

/-- Iterate `log_metrics` over the transfers of a server lifetime,
threading the store state. -/
def appendAll (store : Option (List CsvLine)) :
    List TransferRow → Except Unit (Option (List CsvLine))
  | [] => .ok store
  | r :: rs =>
    match log_metrics store r.timestamp r.client_ip r.client_port
        r.filename r.file_size r.duration with
    | .error e => .error e
    | .ok lines => appendAll (some lines) rs

lemma log_metrics_eq (store : Option (List CsvLine)) (r : TransferRow)
    (hd : 0 ≤ r.duration) :
    log_metrics store r.timestamp r.client_ip r.client_port r.filename
        r.file_size r.duration
      = .ok (match store with
          | none => [CsvLine.header, rowLine r]
          | some lines => lines ++ [rowLine r]) := by
  rw [log_metrics]
  by_cases h : r.duration > 0
  · rw [if_pos h, pyDiv, if_neg (ne_of_gt h)]
    simp only [rowLine, if_pos h]
  · rw [if_neg h]
    simp only [rowLine, if_neg h]

lemma appendAll_some (rows : List TransferRow) :
    ∀ lines : List CsvLine, (∀ r ∈ rows, 0 ≤ r.duration) →
      appendAll (some lines) rows
        = .ok (some (lines ++ rows.map rowLine)) := by
  induction rows with
  | nil =>
    intro lines _
    simp [appendAll]
  | cons r rs ih =>
    intro lines hd
    rw [appendAll, log_metrics_eq _ r (hd r (by simp))]
    dsimp only
    rw [ih (lines ++ [rowLine r]) (fun x hx => hd x (by simp [hx]))]
    simp

/-- Externally visible actions of one sender run. -/
inductive SendEvent where
  | connect
  | send (bytes : List Nat)
  deriving DecidableEq, Repr

/-- The `f.read(CHUNK_SIZE)` loop of the senders
(cliente_limpo.py:45-52): the file content split into successive chunks
of at most `CHUNK_SIZE` bytes. -/
def chunkFile (content : List Nat) : List (List Nat) :=
  if h : content = [] then []
  else content.take CHUNK_SIZE :: chunkFile (content.drop CHUNK_SIZE)
termination_by content.length
decreasing_by
  have hl : 0 < content.length := List.length_pos.mpr h
  simp only [List.length_drop, CHUNK_SIZE]
  omega

/-- `send_file(host, port, filepath)` (cliente_limpo.py:12-54) and its
TLS twin `send_file_tls` (cliente_tls.py:14-68), which build the header
identically: encode the name, check the 65535-byte limit BEFORE opening
any connection, then connect, send the header, and stream the file in
`CHUNK_SIZE` chunks.  The event list records everything that reached the
transport. -/
def send_file (filename : List Char) (content : List Nat) :
    List SendEvent × Except NetError Unit :=
  let name_bytes := utf8Encode filename
  let name_len := name_bytes.length
  if name_len > 65535 then ([], .error .NameTooLong)
  else
    let header := packBE 2 name_len ++ name_bytes
      ++ packBE 8 content.length
    (SendEvent.connect :: SendEvent.send header
        :: (chunkFile content).map SendEvent.send,
      .ok ())

lemma recv_exact_zero (s : ByteStream) :
    recv_exact s 0 = .ok ([], ⟨s.frags⟩) := by
  rw [recv_exact, recvExactAux.eq_def]
  simp

/-- On the bulk delivery of a wire header — 2-byte big-endian length of
the name field, the raw name bytes, 8-byte big-endian size —
`decodeHeader` succeeds and returns the replacement-decoded name
together with the size. -/
lemma decodeHeader_wire (name_bytes : List Nat) (file_size : Nat)
    (hlen : name_bytes.length ≤ 65535) (hsize : file_size < 2 ^ 64) :
    ∃ s', decodeHeader
        ⟨[packBE 2 name_bytes.length ++ name_bytes ++ packBE 8 file_size]⟩
      = .ok (⟨utf8DecodeReplace name_bytes, file_size⟩, s') := by
  set wire := packBE 2 name_bytes.length ++ name_bytes
    ++ packBE 8 file_size with hwire
  have hlw : wire = packBE 2 name_bytes.length
      ++ (name_bytes ++ packBE 8 file_size) := by
    rw [hwire, List.append_assoc]
  have hwirelen : wire.length = 2 + (name_bytes.length + 8) := by
    rw [hlw]
    simp [List.length_append]
  have hwfA : (⟨[wire]⟩ : ByteStream).WF := by
    intro f hf
    simp only [List.mem_singleton] at hf
    subst hf
    exact List.ne_nil_of_length_pos (by omega)
  have hflatA : (⟨[wire]⟩ : ByteStream).frags.flatten = wire := by
    simp
  obtain ⟨sA, hA, hjA, hwA⟩ := recv_exact_spec ⟨[wire]⟩ 2 hwfA (by
    rw [hflatA]; omega)
  rw [hflatA] at hA hjA
  have htakeA : wire.take 2 = packBE 2 name_bytes.length := by
    rw [hlw]
    exact List.take_left' (length_packBE 2 name_bytes.length)
  have hdropA : wire.drop 2 = name_bytes ++ packBE 8 file_size := by
    rw [hlw]
    exact List.drop_left' (length_packBE 2 name_bytes.length)
  rw [htakeA] at hA
  rw [hdropA] at hjA
  have hL : unpackBE (packBE 2 name_bytes.length) = name_bytes.length :=
    unpackBE_packBE (by norm_num; omega)
  obtain ⟨sB, hB, hjB, hwB⟩ := recv_exact_spec sA name_bytes.length hwA (by
    rw [hjA]
    simp [List.length_append])
  rw [hjA, List.take_left' rfl] at hB
  rw [hjA, List.drop_left' rfl] at hjB
  obtain ⟨sC, hC, hjC, hwC⟩ := recv_exact_spec sB 8 hwB (by
    rw [hjB]
    simp)
  rw [hjB, List.take_of_length_le (by simp)] at hC
  have hF : unpackBE (packBE 8 file_size) = file_size :=
    unpackBE_packBE (by
      have : (256 : Nat) ^ 8 = 2 ^ 64 := by norm_num
      omega)
  refine ⟨sC, ?_⟩
  rw [decodeHeader, hA]
  dsimp only
  rw [hL, hB]
  dsimp only
  rw [hC]
  dsimp only
  rw [hF]

/-- C1: for every filename whose UTF-8 encoding is at most 65535 bytes
and every fileSize in `[0, 2^64)`, decoding the bytes produced by header
encoding (2-byte big-endian name length, name bytes, 8-byte big-endian
size) returns exactly the original filename and fileSize pair. -/
theorem C1_header_roundtrip (filename : List Char) (file_size : Nat)
    (hname : (utf8Encode filename).length ≤ 65535)
    (hsize : file_size < 2 ^ 64) :
    ∃ wire s', encodeHeader filename file_size = .ok wire
      ∧ decodeHeader ⟨[wire]⟩ = .ok (⟨filename, file_size⟩, s') := by
  have henc : encodeHeader filename file_size
      = .ok (packBE 2 (utf8Encode filename).length ++ utf8Encode filename
          ++ packBE 8 file_size) := by
    rw [encodeHeader, if_neg (by omega)]
  obtain ⟨s', hdec⟩ :=
    decodeHeader_wire (utf8Encode filename) file_size hname hsize
  rw [utf8DecodeReplace_utf8Encode] at hdec
  exact ⟨_, s', henc, hdec⟩

theorem C1_header_roundtrip_witness :
    ∃ wire s', encodeHeader ['a'] 5 = .ok wire
      ∧ decodeHeader ⟨[wire]⟩ = .ok (⟨['a'], 5⟩, s') :=
  C1_header_roundtrip ['a'] 5 (by decide) (by norm_num)

/-- C2: `recv_exact` either returns exactly the requested number of
bytes or fails with `IncompleteStream`, and when the source ends before
that many bytes are available it does fail; a short result is never
returned. -/
theorem C2_recv_exact_all_or_nothing (s : ByteStream) (n_bytes : Nat) :
    ((∃ d s', recv_exact s n_bytes = .ok (d, s') ∧ d.length = n_bytes)
      ∨ recv_exact s n_bytes = .error .IncompleteStream)
    ∧ (s.frags.flatten.length < n_bytes →
        recv_exact s n_bytes = .error .IncompleteStream) := by
  constructor
  · match hr : recv_exact s n_bytes with
    | .ok (d, s') =>
      exact Or.inl ⟨d, s', rfl, recv_exact_ok_length hr⟩
    | .error e =>
      have : e = .IncompleteStream :=
        recvExactAux_error_eq s.frags n_bytes [] e hr
      exact Or.inr (by rw [this])
  · intro hlt
    exact recvExactAux_underrun s.frags n_bytes [] (by simpa using hlt)

theorem C2_recv_exact_all_or_nothing_witness :
    recv_exact ⟨[[1]]⟩ 3 = .error .IncompleteStream :=
  (C2_recv_exact_all_or_nothing ⟨[[1]]⟩ 3).2 (by decide)

/-- C3: over any splitting of a byte sequence into nonempty fragments —
including one byte at a time — `recv_exact` returns the same bytes as
over the single bulk delivery of the same sequence. -/
theorem C3_recv_exact_fragmentation_invariant
    (frags : List (List Nat)) (n : Nat)
    (hwf : ∀ f ∈ frags, f ≠ []) (hav : n ≤ frags.flatten.length) :
    ∃ d s1 s2, recv_exact ⟨frags⟩ n = .ok (d, s1)
      ∧ recv_exact ⟨[frags.flatten]⟩ n = .ok (d, s2) := by
  obtain ⟨s1, h1, _, _⟩ := recv_exact_spec ⟨frags⟩ n hwf hav
  by_cases he : frags.flatten = []
  · have hn : n = 0 := by
      rw [he] at hav
      simpa using hav
    subst hn
    exact ⟨[], ⟨frags⟩, ⟨[frags.flatten]⟩, recv_exact_zero _,
      recv_exact_zero _⟩
  · have hwf2 : (⟨[frags.flatten]⟩ : ByteStream).WF := by
      intro f hf
      simp only [List.mem_singleton] at hf
      subst hf
      exact he
    obtain ⟨s2, h2, _, _⟩ := recv_exact_spec ⟨[frags.flatten]⟩ n hwf2
      (by simpa using hav)
    refine ⟨frags.flatten.take n, s1, s2, by simpa using h1, ?_⟩
    simpa using h2

theorem C3_recv_exact_fragmentation_invariant_witness :
    ∃ d s1 s2, recv_exact ⟨[[10], [20], [30], [40]]⟩ 3 = .ok (d, s1)
      ∧ recv_exact ⟨[[10, 20, 30, 40]]⟩ 3 = .ok (d, s2) := by
  have h := C3_recv_exact_fragmentation_invariant
    [[10], [20], [30], [40]] 3 (by decide) (by decide)
  simpa using h

/-- C4: the receiver's payload loop reads chunks of size
`min(CHUNK_SIZE, bytes_remaining)` and terminates having consumed and
written exactly the declared `file_size` bytes; for `file_size = 0` it
reads no payload bytes and leaves the file empty. -/
theorem C4_payload_drains_exactly (frags : List (List Nat))
    (file_size : Nat) (hwf : ∀ f ∈ frags, f ≠ [])
    (hav : file_size ≤ frags.flatten.length) :
    (∃ s', payloadLoop ⟨frags⟩ file_size []
        = (frags.flatten.take file_size, .ok s')
      ∧ s'.frags.flatten = frags.flatten.drop file_size)
    ∧ ∀ s : ByteStream, payloadLoop s 0 [] = ([], .ok s) := by
  constructor
  · obtain ⟨s', h1, h2, _⟩ := payloadLoop_spec file_size ⟨frags⟩ [] hwf hav
    exact ⟨s', by simpa using h1, h2⟩
  · intro s
    rw [payloadLoop, dif_neg (by omega)]

theorem C4_payload_drains_exactly_witness :
    (∃ s', payloadLoop ⟨[[7, 8], [9]]⟩ 3 []
        = ([7, 8, 9].take 3, .ok s')
      ∧ s'.frags.flatten = List.drop 3 [7, 8, 9])
    ∧ ∀ s : ByteStream, payloadLoop s 0 [] = ([], .ok s) := by
  have h := C4_payload_drains_exactly [[7, 8], [9]] 3 (by decide) (by decide)
  simpa using h

/-- C5: a `TransferRecord` is emitted exactly when the transfer
completes — the metrics call sits after the payload loop, so any
exact-read failure mid-payload yields no record — and after a
successful header decode the destination file holds exactly what the
payload loop wrote before stopping, with no cleanup on failure. -/
theorem C5_record_iff_complete (s : ByteStream) :
    ((handle_client s).record.isSome ↔ (handle_client s).err = none)
    ∧ (∀ hdr s1, decodeHeader s = .ok (hdr, s1) →
        (handle_client s).file
          = some (hdr.filename, (payloadLoop s1 hdr.fileSize []).1)) := by
  constructor
  · rcases hd : decodeHeader s with e | ⟨hdr, s1⟩
    · rw [handle_client, hd]
      simp
    · rw [handle_client, hd]
      dsimp only
      rcases hp : payloadLoop s1 hdr.fileSize [] with ⟨written, e | s2⟩ <;>
        simp
  · intro hdr s1 hd
    rw [handle_client, hd]
    dsimp only
    rcases hp : payloadLoop s1 hdr.fileSize [] with ⟨written, e | s2⟩ <;>
      simp

theorem C5_record_iff_complete_witness :
    ((handle_client ⟨[[0, 0, 0, 0, 0, 0, 0, 0, 0, 5]]⟩).record.isSome
      ↔ (handle_client ⟨[[0, 0, 0, 0, 0, 0, 0, 0, 0, 5]]⟩).err = none)
    ∧ (handle_client ⟨[[0, 0, 0, 0, 0, 0, 0, 0, 0, 5]]⟩).file
        = some (([] : List Char), (payloadLoop ⟨[]⟩ 5 []).1) := by
  have h := C5_record_iff_complete ⟨[[0, 0, 0, 0, 0, 0, 0, 0, 0, 5]]⟩
  exact ⟨h.1, h.2 ⟨[], 5⟩ ⟨[]⟩ (by rfl)⟩

lemma rowLine_ne_header (r : TransferRow) : rowLine r ≠ CsvLine.header := by
  rw [rowLine]
  exact fun h => CsvLine.noConfusion h

/-- C6: the first append to a nonexistent store writes the header line
followed by one data line, each later append exactly one further data
line, and the header line occurs exactly once in the resulting store. -/
theorem C6_header_exactly_once (rows : List TransferRow)
    (hd : ∀ r ∈ rows, 0 ≤ r.duration) (hne : rows ≠ []) :
    appendAll none rows = .ok (some (CsvLine.header :: rows.map rowLine))
    ∧ (CsvLine.header :: rows.map rowLine).count CsvLine.header = 1 := by
  constructor
  · rcases rows with _ | ⟨r, rs⟩
    · exact absurd rfl hne
    · rw [appendAll, log_metrics_eq _ r (hd r (by simp))]
      dsimp only
      rw [appendAll_some rs [CsvLine.header, rowLine r]
        (fun x hx => hd x (by simp [hx]))]
      simp
  · have hz : (rows.map rowLine).count CsvLine.header = 0 := by
      rw [List.count_eq_zero]
      intro hmem
      rw [List.mem_map] at hmem
      obtain ⟨r, _, hr⟩ := hmem
      exact rowLine_ne_header r hr
    simp [List.count_cons, hz]

theorem C6_header_exactly_once_witness :
    appendAll none [⟨"t1", "ip1", 1, ['a'], 5, 2⟩,
        ⟨"t2", "ip2", 2, ['b'], 7, 0⟩]
      = .ok (some (CsvLine.header
          :: List.map rowLine [⟨"t1", "ip1", 1, ['a'], 5, 2⟩,
              ⟨"t2", "ip2", 2, ['b'], 7, 0⟩]))
    ∧ (CsvLine.header
        :: List.map rowLine [⟨"t1", "ip1", 1, ['a'], 5, 2⟩,
            ⟨"t2", "ip2", 2, ['b'], 7, 0⟩]).count CsvLine.header = 1 :=
  C6_header_exactly_once
    [⟨"t1", "ip1", 1, ['a'], 5, 2⟩, ⟨"t2", "ip2", 2, ['b'], 7, 0⟩]
    (by
      intro r hr
      simp only [List.mem_cons, List.not_mem_nil, or_false] at hr
      rcases hr with h | h <;> subst h <;> norm_num)
    (by simp)

/-- C7: for every fileSize and nonnegative duration the metrics append
never fails: the guard substitutes throughput 0 when duration = 0 and
divides only when duration > 0, so the division-by-zero branch is
unreachable. -/
theorem C7_throughput_guard (store : Option (List CsvLine))
    (timestamp client_ip : String) (client_port : Nat)
    (filename : List Char) (file_size : Nat) (duration : ℚ)
    (hd : 0 ≤ duration) :
    log_metrics store timestamp client_ip client_port filename file_size
        duration
      = .ok (match store with
          | none => [CsvLine.header,
              CsvLine.data timestamp client_ip client_port filename
                file_size duration
                (if duration > 0 then (file_size : ℚ) / duration else 0)]
          | some lines => lines
              ++ [CsvLine.data timestamp client_ip client_port filename
                  file_size duration
                  (if duration > 0 then (file_size : ℚ) / duration
                    else 0)]) :=
  log_metrics_eq store
    ⟨timestamp, client_ip, client_port, filename, file_size, duration⟩ hd

theorem C7_throughput_guard_witness :
    log_metrics none "t" "ip" 1 ['a'] 10 0
      = .ok [CsvLine.header, CsvLine.data "t" "ip" 1 ['a'] 10 0 0] := by
  have h := C7_throughput_guard none "t" "ip" 1 ['a'] 10 0 (by norm_num)
  simpa using h

lemma utf8Encode_replicate_length (k : Nat) (c : Char) :
    (utf8Encode (List.replicate k c)).length
      = k * (utf8EncodeChar c).length := by
  induction k with
  | zero => simp [utf8Encode]
  | succ k ih =>
    rw [List.replicate_succ, utf8Encode, List.flatMap_cons,
      List.length_append]
    rw [utf8Encode] at ih
    rw [ih]
    ring

/-- C8: a filename encoding to more than 65535 bytes makes the sender
fail with `NameTooLong` before connecting or handing any byte to the
transport, while any name of at most (in particular exactly) 65535
encoded bytes passes the check and the send succeeds, starting with the
connect. -/
theorem C8_name_too_long_preflight (filename : List Char)
    (content : List Nat) :
    ((utf8Encode filename).length > 65535 →
      send_file filename content = ([], .error .NameTooLong))
    ∧ ((utf8Encode filename).length ≤ 65535 →
      (send_file filename content).2 = .ok ()
        ∧ (send_file filename content).1.head? = some .connect) := by
  constructor
  · intro h
    rw [send_file, if_pos h]
  · intro h
    rw [send_file, if_neg (by omega)]
    exact ⟨rfl, rfl⟩

theorem C8_name_too_long_preflight_witness :
    send_file (List.replicate 65536 'a') [] = ([], .error .NameTooLong)
    ∧ (send_file (List.replicate 65535 'a') []).2 = .ok () := by
  have hone : (utf8EncodeChar 'a').length = 1 := rfl
  refine ⟨(C8_name_too_long_preflight (List.replicate 65536 'a') []).1 ?_,
    ((C8_name_too_long_preflight (List.replicate 65535 'a') []).2 ?_).1⟩
  · rw [utf8Encode_replicate_length, hone]
    norm_num
  · rw [utf8Encode_replicate_length, hone]

lemma serverLoop_length (conns : List ByteStream) :
    (serverLoop conns).length = conns.length := by
  induction conns with
  | nil => rfl
  | cons c cs ih => simp [serverLoop, ih]

/-- C9: the accept loop handles every connection: a failure while
handling one client is caught (recorded in the outcome's `err`) and the
loop still processes each remaining connection, so no single bad client
terminates the server. -/
theorem C9_accept_loop_survives (conns : List ByteStream) :
    (serverLoop conns).length = conns.length
    ∧ (∀ bad rest, (handle_client bad).err.isSome →
        serverLoop (bad :: rest) = handle_client bad :: serverLoop rest)
    ∧ ∀ (i : Nat) (hi : i < conns.length),
        (serverLoop conns).get ⟨i, (serverLoop_length conns).symm ▸ hi⟩
          = handle_client (conns.get ⟨i, hi⟩) := by
  refine ⟨serverLoop_length conns, fun bad rest _ => rfl, ?_⟩
  induction conns with
  | nil =>
    intro i hi
    cases hi
  | cons c cs ih =>
    intro i hi
    cases i with
    | zero => rfl
    | succ j => exact ih j (by simpa using hi)

theorem C9_accept_loop_survives_witness :
    serverLoop [ByteStream.mk [], ⟨[[0]]⟩]
      = handle_client ⟨[]⟩ :: serverLoop [⟨[[0]]⟩] :=
  (C9_accept_loop_survives []).2.1 ⟨[]⟩ [⟨[[0]]⟩] (by rfl)

/-- C10: the receiver's header decode never fails on invalid UTF-8 in
the name field: for every byte sequence it succeeds, replacing
undecodable sequences with U+FFFD, so a non-UTF-8 name is accepted and
the decoded filename can differ from the bytes sent. -/
theorem C10_name_decode_never_fails (name_bytes : List Nat)
    (file_size : Nat) (hlen : name_bytes.length ≤ 65535)
    (hsize : file_size < 2 ^ 64) :
    (∃ s', decodeHeader
        ⟨[packBE 2 name_bytes.length ++ name_bytes
            ++ packBE 8 file_size]⟩
      = .ok (⟨utf8DecodeReplace name_bytes, file_size⟩, s'))
    ∧ utf8DecodeReplace [0xFF] = [replacementChar]
    ∧ utf8Encode (utf8DecodeReplace [0xFF]) ≠ [0xFF] :=
  ⟨decodeHeader_wire name_bytes file_size hlen hsize, rfl, by decide⟩

theorem C10_name_decode_never_fails_witness :
    (∃ s', decodeHeader
        ⟨[packBE 2 [0xFF].length ++ [0xFF] ++ packBE 8 0]⟩
      = .ok (⟨utf8DecodeReplace [0xFF], 0⟩, s'))
    ∧ utf8DecodeReplace [0xFF] = [replacementChar]
    ∧ utf8Encode (utf8DecodeReplace [0xFF]) ≠ [0xFF] :=
  C10_name_decode_never_fails [0xFF] 0 (by norm_num) (by norm_num)
